import Mathlib

/-!
# VLC-Qt: preferred track selection and deinterlacing names

A shallow embedding of `src/qml/QmlVideoPlayer.cpp`:

* `VlcQmlVideoPlayer::preferredAudioTrackId`    (lines 91-115)
* `VlcQmlVideoPlayer::preferredSubtitleTrackId` (lines 117-143)
* `VlcQmlVideoPlayer::deinterlacing` / `setDeinterlacing` (lines 215-224)

A `QString` is a list of characters.  The Qt library calls the code makes
(`QString::split`, `QString::contains`, `QStringList::indexOf`,
`QStringList::operator[]`) are modelled by the functions of the first section,
with the arguments the code passes.  A track model is the list of its rows, in
the order `data(i, role)` enumerates them.
-/

namespace VlcQt

/-! ## Qt strings -/

/-- A `QString`: a finite sequence of characters. -/
abbrev QString := List Char

/-- The call `s.contains(str)` of `QString`, with the default `Qt::CaseSensitive`
the code leaves in place: `str` occurs in `s` at some position, characters compared
exactly.  The empty string occurs in every string. -/
def contains : QString → QString → Bool
  | [], str => str.isPrefixOf []
  | c :: s, str => str.isPrefixOf (c :: s) || contains s str

/-- The loop of `QString::split(sep, QString::SkipEmptyParts, cs)` for a one-character
separator: `piece` is the text read since the last separator; at a separator, and at
the end of the string, the piece is appended to the result unless it is empty. -/
def splitLoop (sep : Char) : QString → QString → List QString
  | [], piece => if piece = [] then [] else [piece]
  | c :: rest, piece =>
    if c = sep then
      if piece = [] then splitLoop sep rest [] else piece :: splitLoop sep rest []
    else splitLoop sep rest (piece ++ [c])

/-- The call `s.split(",", QString::SkipEmptyParts, Qt::CaseInsensitive)` of lines 93
and 119.  `Qt::CaseInsensitive` governs how the separator is found in `s`; the comma
has no upper or lower case form, so separators are exactly the commas of `s`. -/
def split (s : QString) : List QString := splitLoop ',' s []

/-- The call `list.indexOf(value)` of `QStringList`: the position of the first element
equal to `value`, and `-1` when there is none. -/
def indexOf : List QString → QString → Int
  | [], _ => -1
  | x :: xs, value =>
    if x = value then 0
    else
      let r := indexOf xs value
      if r = -1 then -1 else r + 1

/-! ## Track models -/

/-- One row of a `TracksModel`: what `data(i, IdRole).toInt()` and
`data(i, TitleRole).toString()` return for it. -/
structure Track where
  id : Int
  title : QString
  deriving DecidableEq, Repr

/-- The two locals the nested loops of both selectors update. -/
structure Selection where
  currentTrackId : Int
  found : Bool
  deriving DecidableEq, Repr

/-- The inner loop `for (i = 0; i < count() && !found; i++)` of lines 102-110 and
130-138, run over the rows still to visit, for the token `language`. -/
def innerLoop (language : QString) : List Track → Selection → Selection
  | [], st => st
  | t :: rest, st =>
    if st.found then st
    else
      innerLoop language rest
        (if contains t.title language then ⟨t.id, true⟩ else st)

/-- The outer loop `for (j = 0; j < languages.count() && !found; j++)` of lines 100-111
and 128-139, run over the tokens still to visit. -/
def outerLoop (tracks : List Track) : List QString → Selection → Selection
  | [], st => st
  | language :: rest, st =>
    if st.found then st
    else outerLoop tracks rest (innerLoop language tracks st)

/-- The method `VlcQmlVideoPlayer::preferredAudioTrackId`: `audioPreferredLanguage` is
the field `_audioPreferredLanguage`, `audioTracksModel` the rows of `_audioTracksModel`
and `track` what `_audioManager->track()` returns. -/
def preferredAudioTrackId (audioPreferredLanguage : QString)
    (audioTracksModel : List Track) (track : Int) : Int :=
  let languages := split audioPreferredLanguage
  let currentTrackId := track
  if audioTracksModel.length > 0 ∧ languages.length > 0 then
    (outerLoop audioTracksModel languages ⟨currentTrackId, false⟩).currentTrackId
  else currentTrackId

/-- The text of the literal `"Disable"` of line 121. -/
def disableToken : QString := "Disable".toList

/-- Lines 119-121 of `preferredSubtitleTrackId`: the tokens of the preference, and the
single token `"Disable"` when there are none. -/
def subtitleLanguages (subtitlePreferredLanguage : QString) : List QString :=
  let languages := split subtitlePreferredLanguage
  if languages.length = 0 then languages ++ [disableToken] else languages

/-- The method `VlcQmlVideoPlayer::preferredSubtitleTrackId`: `subtitlePreferredLanguage`
is the field `_subtitlePreferredLanguage`, `subtitleTracksModel` the rows of
`_subtitleTracksModel` and `subtitle` what `_videoManager->subtitle()` returns. -/
def preferredSubtitleTrackId (subtitlePreferredLanguage : QString)
    (subtitleTracksModel : List Track) (subtitle : Int) : Int :=
  let languages := subtitleLanguages subtitlePreferredLanguage
  let currentTrackId := subtitle
  if subtitleTracksModel.length > 0 then
    (outerLoop subtitleTracksModel languages ⟨currentTrackId, false⟩).currentTrackId
  else currentTrackId

/-! ## Deinterlacing names -/

/-- The assignment of `VlcQmlVideoPlayer::setDeinterlacing` (line 222): the new value of
the field `_deinterlacing`, for the name table `names` that `Vlc::deinterlacing()`
returns.  The cast to `Vlc::Deinterlacing` keeps the integer. -/
def setDeinterlacing (names : List QString) (deinterlacing : QString) : Int :=
  indexOf names deinterlacing

/-- The method `VlcQmlVideoPlayer::deinterlacing` (line 217): the entry of the name table
at the stored index; `none` when the index is outside the table, where
`QStringList::operator[]` has no defined result. -/
def deinterlacing (names : List QString) (stored : Int) : Option QString :=
  if 0 ≤ stored then names.get? stored.toNat else none

/-! ## The tokens in the words of the specification, and sample inputs -/

/-- The tokens as the specification words them, without any trimming: the pieces of the
preference string between commas, the empty pieces dropped. -/
def piecesBetweenCommas (s : QString) : List QString :=
  (s.splitOn ',').filter fun piece => !piece.isEmpty

/-- The track list of the specification's tie-break example. -/
def dubAndOrig : List Track :=
  [⟨1, "English (dub)".toList⟩, ⟨2, "English (orig)".toList⟩]

/-- The track list of the specification's token priority example. -/
def englishFrench : List Track :=
  [⟨1, "English".toList⟩, ⟨2, "French".toList⟩]

/-- The track list of the specification's no-match example. -/
def englishOnly : List Track := [⟨1, "English".toList⟩]

/-- A subtitle track list as the engine reports it: the entry that switches subtitles
off, with id `-1`, then one track. -/
def disableThenEnglish : List Track :=
  [⟨-1, "Disable".toList⟩, ⟨3, "English".toList⟩]

/-- A subtitle track list in which no track is titled `Disable` and one title has
`Disable` as a proper part. -/
def disabledCommentary : List Track := [⟨7, "Disabled commentary".toList⟩]

/-- A table of deinterlacing names in which a name occurs twice. -/
def sampleNames : List QString :=
  ["".toList, "discard".toList, "blend".toList, "discard".toList]

/-! ## The substring test -/

/-- The model of `QString::contains` is the substring relation on character lists. -/
theorem contains_iff_infix (s str : QString) : contains s str = true ↔ str <:+: s := by
  induction s with
  | nil =>
    cases str with
    | nil => simp [contains]
    | cons a l => simp [contains, List.isPrefixOf]
  | cons c s ih =>
    simp only [contains, Bool.or_eq_true, ih, List.isPrefixOf_iff_prefix]
    rw [List.infix_cons_iff]

/-! ## The two loops -/

theorem innerLoop_of_found (language : QString) (tracks : List Track) (st : Selection)
    (h : st.found = true) : innerLoop language tracks st = st := by
  cases tracks with
  | nil => rfl
  | cons t rest => simp [innerLoop, h]

theorem innerLoop_of_no_match (language : QString) (tracks : List Track) (st : Selection)
    (h : ∀ t ∈ tracks, contains t.title language = false) :
    innerLoop language tracks st = st := by
  induction tracks with
  | nil => rfl
  | cons t rest ih =>
    have ht : contains t.title language = false := h t (List.mem_cons_self _ _)
    have hrest : ∀ u ∈ rest, contains u.title language = false :=
      fun u hu => h u (List.mem_cons_of_mem _ hu)
    by_cases hf : st.found = true
    · simp [innerLoop, hf]
    · simp [innerLoop, hf, ht, ih hrest]

theorem innerLoop_first_match (language : QString) (before : List Track) (t : Track)
    (after : List Track) (st : Selection) (hst : st.found = false)
    (hbefore : ∀ u ∈ before, contains u.title language = false)
    (ht : contains t.title language = true) :
    innerLoop language (before ++ t :: after) st = ⟨t.id, true⟩ := by
  induction before with
  | nil =>
    simp only [List.nil_append, innerLoop, hst, ht, if_true]
    exact innerLoop_of_found _ _ _ rfl
  | cons u rest ih =>
    have hu : contains u.title language = false := hbefore u (List.mem_cons_self _ _)
    have hrest : ∀ v ∈ rest, contains v.title language = false :=
      fun v hv => hbefore v (List.mem_cons_of_mem _ hv)
    simp [innerLoop, hst, hu, ih hrest]

/-- A list with an element satisfying `p` splits at the first such element. -/
theorem exists_first_match {α : Type} (p : α → Bool) (l : List α)
    (h : ∃ x ∈ l, p x = true) :
    ∃ before x after, l = before ++ x :: after ∧ (∀ y ∈ before, p y = false) ∧
      p x = true := by
  induction l with
  | nil => simp at h
  | cons a rest ih =>
    by_cases ha : p a = true
    · exact ⟨[], a, rest, rfl, by simp, ha⟩
    · have hrest : ∃ x ∈ rest, p x = true := by
        obtain ⟨x, hx, hpx⟩ := h
        rcases List.mem_cons.mp hx with rfl | hx
        · exact absurd hpx ha
        · exact ⟨x, hx, hpx⟩
      obtain ⟨before, x, after, hl, hb, hx⟩ := ih hrest
      refine ⟨a :: before, x, after, by simp [hl], ?_, hx⟩
      intro y hy
      rcases List.mem_cons.mp hy with rfl | hy
      · simpa using ha
      · exact hb y hy

theorem outerLoop_of_found (tracks : List Track) (languages : List QString)
    (st : Selection) (h : st.found = true) : outerLoop tracks languages st = st := by
  cases languages with
  | nil => rfl
  | cons l rest => simp [outerLoop, h]

theorem outerLoop_of_no_match (tracks : List Track) (languages : List QString)
    (st : Selection)
    (h : ∀ l ∈ languages, ∀ t ∈ tracks, contains t.title l = false) :
    outerLoop tracks languages st = st := by
  induction languages with
  | nil => rfl
  | cons l rest ih =>
    have hl := innerLoop_of_no_match l tracks st (h l (List.mem_cons_self _ _))
    have hrest : ∀ m ∈ rest, ∀ t ∈ tracks, contains t.title m = false :=
      fun m hm => h m (List.mem_cons_of_mem _ hm)
    by_cases hf : st.found = true
    · simp [outerLoop, hf]
    · simp [outerLoop, hf, hl, ih hrest]

/-- The result of the nested loops: the first track, in the order of the model, that
the first token matching any track matches. -/
theorem outerLoop_first_match (earlier : List QString) (token : QString)
    (later : List QString) (before : List Track) (t : Track) (after : List Track)
    (st : Selection) (hst : st.found = false)
    (hearlier : ∀ l ∈ earlier, ∀ u ∈ before ++ t :: after, contains u.title l = false)
    (hbefore : ∀ u ∈ before, contains u.title token = false)
    (ht : contains t.title token = true) :
    outerLoop (before ++ t :: after) (earlier ++ token :: later) st = ⟨t.id, true⟩ := by
  induction earlier with
  | nil =>
    simp only [List.nil_append, outerLoop, hst]
    rw [innerLoop_first_match token before t after st hst hbefore ht]
    exact outerLoop_of_found _ _ _ rfl
  | cons l rest ih =>
    have hl := innerLoop_of_no_match l (before ++ t :: after) st
      (hearlier l (List.mem_cons_self _ _))
    have hrest : ∀ m ∈ rest, ∀ u ∈ before ++ t :: after, contains u.title m = false :=
      fun m hm => hearlier m (List.mem_cons_of_mem _ hm)
    simp [outerLoop, hst, hl, ih hrest]

/-- Every run of the nested loops either leaves the selection as it was or ends on a
track of the model whose title contains one of the tokens. -/
theorem outerLoop_cases (tracks : List Track) (languages : List QString)
    (st : Selection) (hst : st.found = false) :
    outerLoop tracks languages st = st ∨
      ∃ l ∈ languages, ∃ t ∈ tracks, contains t.title l = true ∧
        outerLoop tracks languages st = ⟨t.id, true⟩ := by
  by_cases h : ∃ l ∈ languages, (tracks.any fun t => contains t.title l) = true
  · right
    obtain ⟨earlier, token, later, hl, hearlier, htoken⟩ :=
      exists_first_match (fun l => tracks.any fun t => contains t.title l) languages h
    have hsome : ∃ t ∈ tracks, contains t.title token = true := by
      simpa [List.any_eq_true] using htoken
    obtain ⟨before, t, after, ht, hbefore, hmatch⟩ :=
      exists_first_match (fun t => contains t.title token) tracks hsome
    refine ⟨token, by simp [hl], t, by simp [ht], hmatch, ?_⟩
    subst hl ht
    refine outerLoop_first_match earlier token later before t after st hst ?_ hbefore hmatch
    intro l hl u hu
    have := hearlier l hl
    simp only [List.any_eq_false] at this
    simpa using this u hu
  · left
    refine outerLoop_of_no_match tracks languages st ?_
    intro l hl t ht
    by_contra hc
    exact h ⟨l, hl, List.any_eq_true.mpr ⟨t, ht, by simpa using hc⟩⟩

/-! ## Tokens -/

theorem splitLoop_eq (sep : Char) (s piece : QString) :
    splitLoop sep s piece =
      ((s.splitOn sep).modifyHead fun p => piece ++ p).filter fun p => !p.isEmpty := by
  induction s generalizing piece with
  | nil =>
    cases piece <;> simp [splitLoop, List.modifyHead]
  | cons c rest ih =>
    by_cases hc : c = sep
    · subst hc
      have h0 : ((rest.splitOn c).modifyHead fun p => [] ++ p) = rest.splitOn c := by
        cases rest.splitOn c <;> simp [List.modifyHead]
      have ih0 := ih []
      rw [h0] at ih0
      cases piece with
      | nil => simp [splitLoop, List.splitOn, List.modifyHead, ih0]
      | cons a l => simp [splitLoop, List.splitOn, List.modifyHead, ih0]
    · have hbeq : (c == sep) = false := by simpa using hc
      simp only [splitLoop, hc, if_false, ih, List.splitOn, List.splitOnP_cons, hbeq,
        Bool.false_eq_true, List.modifyHead_modifyHead]
      congr 2
      funext p
      simp

theorem split_eq_pieces (s : QString) : split s = piecesBetweenCommas s := by
  unfold split piecesBetweenCommas
  rw [splitLoop_eq]
  congr 1
  cases s.splitOn ',' <;> simp [List.modifyHead]

theorem splitLoop_eq_nil_iff (sep : Char) (s piece : QString) :
    splitLoop sep s piece = [] ↔ piece = [] ∧ ∀ c ∈ s, c = sep := by
  induction s generalizing piece with
  | nil => cases piece <;> simp [splitLoop]
  | cons c rest ih =>
    by_cases hc : c = sep
    · cases piece with
      | nil => simp [splitLoop, hc, ih]
      | cons a l => simp [splitLoop, hc]
    · simp [splitLoop, hc, ih]

theorem split_eq_nil_iff (s : QString) : split s = [] ↔ ∀ c ∈ s, c = ',' := by
  simp [split, splitLoop_eq_nil_iff]

theorem splitLoop_token (sep : Char) (s piece : QString) (hpiece : sep ∉ piece) :
    ∀ t ∈ splitLoop sep s piece, t ≠ [] ∧ sep ∉ t := by
  induction s generalizing piece with
  | nil =>
    intro t ht
    by_cases hp : piece = []
    · simp [splitLoop, hp] at ht
    · simp only [splitLoop, hp, if_false, List.mem_singleton] at ht
      subst ht
      exact ⟨hp, hpiece⟩
  | cons c rest ih =>
    intro t ht
    by_cases hc : c = sep
    · by_cases hp : piece = []
      · simp only [splitLoop, hc, hp, if_true] at ht
        exact ih [] (by simp) t ht
      · simp only [splitLoop, hc, hp, if_true, if_false, List.mem_cons] at ht
        rcases ht with rfl | ht
        · exact ⟨hp, hpiece⟩
        · exact ih [] (by simp) t ht
    · simp only [splitLoop, hc, if_false] at ht
      refine ih (piece ++ [c]) ?_ t ht
      simp only [List.mem_append, List.mem_singleton, not_or]
      exact ⟨hpiece, fun h => hc h.symm⟩

theorem split_token (s : QString) : ∀ t ∈ split s, t ≠ [] ∧ ',' ∉ t :=
  splitLoop_token ',' s [] (by simp)

/-! ## Positions in a name table -/

theorem indexOf_of_not_mem (names : List QString) (value : QString)
    (h : value ∉ names) : indexOf names value = -1 := by
  induction names with
  | nil => rfl
  | cons x xs ih =>
    have hx : x ≠ value := fun e => h (by simp [e])
    have hxs : value ∉ xs := fun m => h (List.mem_cons_of_mem _ m)
    simp [indexOf, hx, ih hxs]

/-- For a name of the table, `indexOf` is the position of its first occurrence. -/
theorem indexOf_of_mem (names : List QString) (value : QString) (h : value ∈ names) :
    ∃ n : Nat, indexOf names value = (n : Int) ∧ n < names.length ∧
      names.get? n = some value ∧ ∀ k, k < n → names.get? k ≠ some value := by
  induction names with
  | nil => simp at h
  | cons x xs ih =>
    by_cases hx : x = value
    · exact ⟨0, by simp [indexOf, hx], by simp, by simp [hx], by simp⟩
    · have hxs : value ∈ xs := by
        rcases List.mem_cons.mp h with e | m
        · exact absurd e.symm hx
        · exact m
      obtain ⟨n, hn, hlt, hget, hfirst⟩ := ih hxs
      refine ⟨n + 1, ?_, by simpa using hlt, by simpa using hget, ?_⟩
      · have hne : (n : Int) ≠ -1 := by omega
        simp only [indexOf, hx, if_false, hn, hne]
        push_cast
        rfl
      · intro k hk
        cases k with
        | zero => simpa using hx
        | succ j => simpa using hfirst j (by omega)

/-! ## The selectors as runs of the nested loops -/

theorem outerLoop_nil_tracks (languages : List QString) (st : Selection) :
    outerLoop [] languages st = st :=
  outerLoop_of_no_match [] languages st (by simp)

theorem preferredAudioTrackId_eq (preference : QString) (tracks : List Track)
    (current : Int) :
    preferredAudioTrackId preference tracks current =
      (outerLoop tracks (split preference) ⟨current, false⟩).currentTrackId := by
  unfold preferredAudioTrackId
  cases tracks with
  | nil => simp [outerLoop_nil_tracks]
  | cons t rest =>
    cases hsp : split preference with
    | nil => simp [outerLoop]
    | cons l ls => simp

theorem preferredSubtitleTrackId_eq (preference : QString) (tracks : List Track)
    (current : Int) :
    preferredSubtitleTrackId preference tracks current =
      (outerLoop tracks (subtitleLanguages preference) ⟨current, false⟩).currentTrackId := by
  unfold preferredSubtitleTrackId
  cases tracks with
  | nil => simp [outerLoop_nil_tracks]
  | cons t rest => simp

theorem subtitleLanguages_of_tokens (preference : QString) (h : split preference ≠ []) :
    subtitleLanguages preference = split preference := by
  unfold subtitleLanguages
  cases hsp : split preference with
  | nil => exact absurd hsp h
  | cons l ls => simp

theorem subtitleLanguages_of_no_token (preference : QString) (h : split preference = []) :
    subtitleLanguages preference = [disableToken] := by
  simp [subtitleLanguages, h]

/-! ## Claims -/

/-- C1, evaluated on the code at the specification's tie-break example: with preference
`en` and the tracks `(1, English (dub))`, `(2, English (orig))` the selector compares
letters exactly, finds `en` in neither title and returns the current id, whatever it
is; with current id `0` the result is `0`, not `1`. -/
theorem preferredAudioTrackId_en_keeps_current (current : Int) :
    contains "English (dub)".toList "en".toList = false ∧
    contains "English (orig)".toList "en".toList = false ∧
    preferredAudioTrackId "en".toList dubAndOrig current = current ∧
    preferredAudioTrackId "en".toList dubAndOrig 0 ≠ 1 := by
  refine ⟨by decide, by decide, ?_, by decide⟩
  rfl

/-- C2, token priority: when `token` is the earliest token of the list that the title
of some track contains (no track's title contains a token of `earlier`), the audio
selector, whose token list is `split preference`, and the subtitle selector, whose
token list is `subtitleLanguages preference`, return the id of a track whose title
contains `token`, whatever the tokens of `later` match.  With the preference `fr,en`
and the tracks `(1, English)`, `(2, French)` both return `2`. -/
theorem token_priority (tracks : List Track) (preference : QString) (current : Int)
    (earlier : List QString) (token : QString) (later : List QString)
    (hearlier : ∀ l ∈ earlier, ∀ t ∈ tracks, contains t.title l = false)
    (hsome : ∃ t ∈ tracks, contains t.title token = true) :
    (split preference = earlier ++ token :: later →
      ∃ t ∈ tracks, contains t.title token = true ∧
        preferredAudioTrackId preference tracks current = t.id) ∧
    (subtitleLanguages preference = earlier ++ token :: later →
      ∃ t ∈ tracks, contains t.title token = true ∧
        preferredSubtitleTrackId preference tracks current = t.id) ∧
    preferredAudioTrackId "fr,en".toList englishFrench current = 2 ∧
    preferredSubtitleTrackId "fr,en".toList englishFrench current = 2 := by
  obtain ⟨before, t, after, htracks, hbefore, ht⟩ :=
    exists_first_match (fun t => contains t.title token) tracks hsome
  subst htracks
  have hloop := outerLoop_first_match earlier token later before t after
    ⟨current, false⟩ rfl hearlier hbefore ht
  refine ⟨?_, ?_, rfl, rfl⟩
  · intro hsplit
    refine ⟨t, by simp, ht, ?_⟩
    rw [preferredAudioTrackId_eq, hsplit, hloop]
  · intro hlang
    refine ⟨t, by simp, ht, ?_⟩
    rw [preferredSubtitleTrackId_eq, hlang, hloop]

/-- C2 at a concrete input: with preference `Fr,En` the first token is in the title of
the second track only and the second token in the title of the first track; both
selectors return the id `2` of the second track. -/
theorem token_priority_witness :
    contains "English".toList "En".toList = true ∧
    preferredAudioTrackId "Fr,En".toList englishFrench 0 = 2 ∧
    preferredSubtitleTrackId "Fr,En".toList englishFrench 0 = 2 := by
  have h := token_priority englishFrench "Fr,En".toList 0 [] "Fr".toList ["En".toList]
    (by simp) (by decide)
  obtain ⟨ta, hta, hca, hea⟩ := h.1 (by decide)
  obtain ⟨ts, hts, hcs, hes⟩ := h.2.1 (by decide)
  refine ⟨by decide, ?_, ?_⟩
  · rw [hea]
    simp only [englishFrench, List.mem_cons, List.mem_singleton, List.not_mem_nil,
      or_false] at hta
    rcases hta with rfl | rfl
    · exact absurd hca (by decide)
    · rfl
  · rw [hes]
    simp only [englishFrench, List.mem_cons, List.mem_singleton, List.not_mem_nil,
      or_false] at hts
    rcases hts with rfl | rfl
    · exact absurd hcs (by decide)
    · rfl

/-- C6, track enumeration tie-break: when `token` is the earliest token some title
contains and `t` is the first track of the list whose title contains it (no title in
`before` does; the titles in `after` may), both selectors return the id of `t`. -/
theorem first_enumerated_track_wins (preference : QString) (current : Int)
    (earlier : List QString) (token : QString) (later : List QString)
    (before : List Track) (t : Track) (after : List Track)
    (hearlier : ∀ l ∈ earlier, ∀ u ∈ before ++ t :: after, contains u.title l = false)
    (hbefore : ∀ u ∈ before, contains u.title token = false)
    (ht : contains t.title token = true) :
    (split preference = earlier ++ token :: later →
      preferredAudioTrackId preference (before ++ t :: after) current = t.id) ∧
    (subtitleLanguages preference = earlier ++ token :: later →
      preferredSubtitleTrackId preference (before ++ t :: after) current = t.id) := by
  have hloop := outerLoop_first_match earlier token later before t after
    ⟨current, false⟩ rfl hearlier hbefore ht
  constructor
  · intro hsplit
    rw [preferredAudioTrackId_eq, hsplit, hloop]
  · intro hlang
    rw [preferredSubtitleTrackId_eq, hlang, hloop]

/-- C6 at a concrete input: the token `English` is in the titles of both tracks of the
tie-break example, and both selectors return the id `1` of the first one. -/
theorem first_enumerated_track_wins_witness :
    contains "English (orig)".toList "English".toList = true ∧
    preferredAudioTrackId "English".toList dubAndOrig 0 = 1 ∧
    preferredSubtitleTrackId "English".toList dubAndOrig 0 = 1 := by
  have h := first_enumerated_track_wins "English".toList 0 [] "English".toList []
    [] ⟨1, "English (dub)".toList⟩ [⟨2, "English (orig)".toList⟩]
    (by simp) (by simp) (by decide)
  exact ⟨by decide, h.1 (by decide), h.2 (by decide)⟩

/-- C8, one algorithm for both selectors: for a preference string that yields at least
one token, `preferredSubtitleTrackId` and `preferredAudioTrackId` return the same id on
the same track list, preference string and current id. -/
theorem subtitle_eq_audio_of_tokens (tracks : List Track) (preference : QString)
    (current : Int) (h : split preference ≠ []) :
    preferredSubtitleTrackId preference tracks current =
      preferredAudioTrackId preference tracks current := by
  rw [preferredSubtitleTrackId_eq, preferredAudioTrackId_eq,
    subtitleLanguages_of_tokens preference h]

/-- C8 at a concrete input: preference `Fr,En` on the tracks `(1, English)`,
`(2, French)` with current id `0`. -/
theorem subtitle_eq_audio_of_tokens_witness :
    split "Fr,En".toList ≠ [] ∧
    preferredSubtitleTrackId "Fr,En".toList englishFrench 0 =
      preferredAudioTrackId "Fr,En".toList englishFrench 0 :=
  ⟨by decide, subtitle_eq_audio_of_tokens englishFrench "Fr,En".toList 0 (by decide)⟩

/-- C9, no invented id: the result of `preferredAudioTrackId` is the current id or the
id of a track of the list, and when it differs from the current id it is the id of a
track whose title contains one of the tokens of `split preference`; the same holds for
`preferredSubtitleTrackId` with the tokens of `subtitleLanguages preference`. -/
theorem selectors_never_invent_an_id (tracks : List Track) (preference : QString)
    (current : Int) :
    (preferredAudioTrackId preference tracks current = current ∨
      ∃ t ∈ tracks, preferredAudioTrackId preference tracks current = t.id) ∧
    (preferredAudioTrackId preference tracks current ≠ current →
      ∃ l ∈ split preference, ∃ t ∈ tracks, contains t.title l = true ∧
        preferredAudioTrackId preference tracks current = t.id) ∧
    (preferredSubtitleTrackId preference tracks current = current ∨
      ∃ t ∈ tracks, preferredSubtitleTrackId preference tracks current = t.id) ∧
    (preferredSubtitleTrackId preference tracks current ≠ current →
      ∃ l ∈ subtitleLanguages preference, ∃ t ∈ tracks, contains t.title l = true ∧
        preferredSubtitleTrackId preference tracks current = t.id) := by
  have key : ∀ languages : List QString,
      (outerLoop tracks languages ⟨current, false⟩).currentTrackId = current ∨
      ∃ l ∈ languages, ∃ t ∈ tracks, contains t.title l = true ∧
        (outerLoop tracks languages ⟨current, false⟩).currentTrackId = t.id := by
    intro languages
    rcases outerLoop_cases tracks languages ⟨current, false⟩ rfl with h | h
    · left
      rw [h]
    · right
      obtain ⟨l, hl, t, ht, hc, he⟩ := h
      exact ⟨l, hl, t, ht, hc, by rw [he]⟩
  rw [preferredAudioTrackId_eq, preferredSubtitleTrackId_eq]
  refine ⟨?_, ?_, ?_, ?_⟩
  · rcases key (split preference) with h | ⟨l, _, t, ht, _, he⟩
    · exact Or.inl h
    · exact Or.inr ⟨t, ht, he⟩
  · intro hne
    rcases key (split preference) with h | h
    · exact absurd h hne
    · exact h
  · rcases key (subtitleLanguages preference) with h | ⟨l, _, t, ht, _, he⟩
    · exact Or.inl h
    · exact Or.inr ⟨t, ht, he⟩
  · intro hne
    rcases key (subtitleLanguages preference) with h | h
    · exact absurd h hne
    · exact h

/-- C3 as stated fails: in `disabledCommentary` no track is titled `Disable`, yet with
the empty preference and current id `3` the subtitle selector returns `7`, the id of
the track whose title has `Disable` as a part; and when a track titled `Disable`, with
id `-1`, follows that track, the result is still `7`. -/
theorem subtitle_default_counterexample :
    (∀ t ∈ disabledCommentary, t.title ≠ disableToken) ∧
    preferredSubtitleTrackId [] disabledCommentary 3 ≠ 3 ∧
    preferredSubtitleTrackId [] (disabledCommentary ++ [⟨-1, disableToken⟩]) 3 ≠ -1 := by
  decide

/-- C3, amended: with the empty preference string the subtitle selector works with the
token list `[Disable]`; the result is the id of the first track of the list whose
title contains `Disable` (a track titled `Disable` is such a track), and the current
subtitle id when no title contains `Disable`. -/
theorem subtitle_default (tracks : List Track) (current : Int) :
    subtitleLanguages [] = [disableToken] ∧
    (∀ t : Track, t.title = disableToken → contains t.title disableToken = true) ∧
    (∀ before t after, tracks = before ++ t :: after →
      (∀ u ∈ before, contains u.title disableToken = false) →
      contains t.title disableToken = true →
      preferredSubtitleTrackId [] tracks current = t.id) ∧
    ((∀ t ∈ tracks, contains t.title disableToken = false) →
      preferredSubtitleTrackId [] tracks current = current) := by
  have hlang : subtitleLanguages [] = [disableToken] := rfl
  refine ⟨hlang, ?_, ?_, ?_⟩
  · intro t ht
    rw [ht]
    decide
  · intro before t after htracks hbefore ht
    subst htracks
    rw [preferredSubtitleTrackId_eq, hlang]
    have := outerLoop_first_match [] disableToken [] before t after ⟨current, false⟩ rfl
      (by simp) hbefore ht
    simp only [List.nil_append] at this
    rw [this]
  · intro hnone
    rw [preferredSubtitleTrackId_eq, hlang, outerLoop_of_no_match]
    intro l hl t ht
    rw [List.mem_singleton.mp hl]
    exact hnone t ht

/-- C4, pass-through: a preference string yields no token exactly when all its
characters are commas (the empty string included); for such a preference, or with an
empty track list, `preferredAudioTrackId` returns the current audio track id. -/
theorem audio_pass_through (preference : QString) (tracks : List Track) (current : Int)
    (h : (∀ c ∈ preference, c = ',') ∨ tracks = []) :
    (split preference = [] ↔ ∀ c ∈ preference, c = ',') ∧
    preferredAudioTrackId preference tracks current = current := by
  refine ⟨split_eq_nil_iff preference, ?_⟩
  rw [preferredAudioTrackId_eq]
  rcases h with h | h
  · rw [(split_eq_nil_iff preference).mpr h]
    rfl
  · rw [h, outerLoop_nil_tracks]

/-- C4 at a concrete input: the preference `,,` on the track `(1, English)` with
current id `5`. -/
theorem audio_pass_through_witness :
    split ",,".toList = [] ∧ preferredAudioTrackId ",,".toList englishOnly 5 = 5 :=
  ⟨by decide, (audio_pass_through ",,".toList englishOnly 5 (Or.inl (by decide))).2⟩

/-- C5 as stated fails: the tokens are not trimmed.  The preference `fr, en` has the
tokens `fr` and ` en` (with its space); on the tracks `(1, English)`, `(2, French)`
with current id `0` it selects `0` where `fr,en` selects `2`; and the preference ` , `,
made of spaces and a comma, yields two tokens. -/
theorem trimmed_tokens_counterexample :
    split "fr, en".toList = ["fr".toList, " en".toList] ∧
    preferredAudioTrackId "fr,en".toList englishFrench 0 = 2 ∧
    preferredAudioTrackId "fr, en".toList englishFrench 0 = 0 ∧
    preferredSubtitleTrackId "fr,en".toList englishFrench 0 ≠
      preferredSubtitleTrackId "fr, en".toList englishFrench 0 ∧
    split " , ".toList = [" ".toList, " ".toList] := by
  decide

/-- C5, amended: the tokens the selectors match against are the pieces of the
preference string between commas, taken as they are, with the empty pieces dropped.
Every token is non-empty and free of commas; there is no token exactly when the
preference is made only of commas; and joining non-empty comma-free pieces with commas
gives a preference whose tokens are these pieces, spaces included. -/
theorem tokens_are_untrimmed_pieces (preference : QString) (tracks : List Track)
    (current : Int) :
    split preference = piecesBetweenCommas preference ∧
    (∀ t ∈ split preference, t ≠ [] ∧ ',' ∉ t) ∧
    (split preference = [] ↔ ∀ c ∈ preference, c = ',') ∧
    (∀ pieces : List QString, (∀ p ∈ pieces, p ≠ [] ∧ ',' ∉ p) →
      split ([','].intercalate pieces) = pieces) ∧
    preferredAudioTrackId preference tracks current =
      (outerLoop tracks (piecesBetweenCommas preference) ⟨current, false⟩).currentTrackId ∧
    (piecesBetweenCommas preference ≠ [] →
      preferredSubtitleTrackId preference tracks current =
        (outerLoop tracks (piecesBetweenCommas preference)
          ⟨current, false⟩).currentTrackId) := by
  refine ⟨split_eq_pieces preference, split_token preference,
    split_eq_nil_iff preference, ?_, ?_, ?_⟩
  · intro pieces hpieces
    cases hp : pieces with
    | nil => rfl
    | cons a l =>
      rw [← hp, split_eq_pieces, piecesBetweenCommas,
        List.splitOn_intercalate pieces ',' (fun p hp => (hpieces p hp).2) (by simp [hp])]
      rw [List.filter_eq_self]
      intro p hp
      have := (hpieces p hp).1
      cases p with
      | nil => exact absurd rfl this
      | cons c r => rfl
  · rw [preferredAudioTrackId_eq, split_eq_pieces]
  · intro hne
    rw [preferredSubtitleTrackId_eq, subtitleLanguages_of_tokens, split_eq_pieces]
    rw [split_eq_pieces]
    exact hne

/-- C7 as stated fails: the preference `,` is not empty and has no token, so no token
of it is in any title; on the subtitle tracks `(-1, Disable)`, `(3, English)` with
current id `3` the subtitle selector falls on the token `Disable` and returns `-1`. -/
theorem no_match_counterexample :
    ",".toList ≠ [] ∧
    (∀ l ∈ split ",".toList, ∀ t ∈ disableThenEnglish, contains t.title l = false) ∧
    preferredSubtitleTrackId ",".toList disableThenEnglish 3 ≠ 3 := by
  decide

/-- C7, amended: if no token of the preference is contained in any track's title,
`preferredAudioTrackId` returns the current audio track id, and
`preferredSubtitleTrackId`, for a preference that yields at least one token, returns
the current subtitle track id.  With the preference `zz` and the track `(1, English)`
both return the current id. -/
theorem no_match_falls_back (tracks : List Track) (preference : QString) (current : Int)
    (h : ∀ l ∈ split preference, ∀ t ∈ tracks, contains t.title l = false) :
    preferredAudioTrackId preference tracks current = current ∧
    (split preference ≠ [] →
      preferredSubtitleTrackId preference tracks current = current) ∧
    preferredAudioTrackId "zz".toList englishOnly current = current ∧
    preferredSubtitleTrackId "zz".toList englishOnly current = current := by
  refine ⟨?_, ?_, rfl, rfl⟩
  · rw [preferredAudioTrackId_eq, outerLoop_of_no_match _ _ _ h]
  · intro hne
    rw [preferredSubtitleTrackId_eq, subtitleLanguages_of_tokens preference hne,
      outerLoop_of_no_match _ _ _ h]

/-- C7 at a concrete input: the preference `de,it` on the tracks `(1, English)`,
`(2, French)` with current id `-1`. -/
theorem no_match_falls_back_witness :
    split "de,it".toList = ["de".toList, "it".toList] ∧
    preferredAudioTrackId "de,it".toList englishFrench (-1) = -1 ∧
    preferredSubtitleTrackId "de,it".toList englishFrench (-1) = -1 := by
  have h := no_match_falls_back englishFrench "de,it".toList (-1) (by decide)
  exact ⟨by decide, h.1, h.2.1 (by decide)⟩

/-- C10, deinterlacing name round trip: for every name table and every string `s` of
it, `setDeinterlacing` stores the first position of `s` in the table, a position
within the table, and `deinterlacing` then returns `s`; and whenever the stored index
is within the table, `s` occurs in the table. -/
theorem deinterlacing_round_trip (names : List QString) (s : QString) :
    (s ∈ names →
      deinterlacing names (setDeinterlacing names s) = some s ∧
      ∃ n : Nat, setDeinterlacing names s = (n : Int) ∧ n < names.length ∧
        names.get? n = some s ∧ ∀ k, k < n → names.get? k ≠ some s) ∧
    (0 ≤ setDeinterlacing names s ∧ setDeinterlacing names s < (names.length : Int) →
      s ∈ names) := by
  constructor
  · intro hs
    obtain ⟨n, hn, hlt, hget, hfirst⟩ := indexOf_of_mem names s hs
    refine ⟨?_, n, hn, hlt, hget, hfirst⟩
    simpa [deinterlacing, setDeinterlacing, hn] using hget
  · rintro ⟨hnonneg, _⟩
    by_contra hs
    have := indexOf_of_not_mem names s hs
    simp only [setDeinterlacing, this] at hnonneg
    omega

/-- C10 at a concrete input: in a table where `discard` occurs at positions 1 and 3
the stored index is `1` and the name read back is `discard`; for `yadif`, absent from
the table, the stored index is `-1`, outside the table. -/
theorem deinterlacing_round_trip_witness :
    deinterlacing sampleNames (setDeinterlacing sampleNames "discard".toList) =
      some "discard".toList ∧
    setDeinterlacing sampleNames "discard".toList = 1 ∧
    setDeinterlacing sampleNames "yadif".toList = -1 :=
  ⟨((deinterlacing_round_trip sampleNames "discard".toList).1 (by decide)).1,
    by decide, by decide⟩

end VlcQt
